import Mathlib

/-!
Verification development for the LZW core of the emacs-lzw repository.

The authoritative code is `src/lzw.c`: `lzw_compress` (lines 38-77) and
`lzw_decompress` (lines 79-183).  The compression-side trie dictionary is
implemented in `trie.c`, which is not among the sources (only the header
`trie.h` and the call sites in `lzw.c` are); it is modelled from the
specification, as documented on the definitions below.

Bytes are modelled as natural numbers (real bytes are < 256, which the
theorems hypothesise where it matters); codewords are natural numbers.
Reads of uninitialized or out-of-bounds memory, and writes past the end of
the presized output buffer, are undefined behaviour in the C code and are
reported by the embedding as `none`.
-/

set_option maxRecDepth 20000

/-- A byte string: a list of byte values. -/
abbrev ByteStr := List Nat

/-- Modelled from the spec: `trie.c` is missing from the sources.  The trie
maps byte strings to integer codewords; lookup returns the explicit
"not found" value 0 for absent strings (spec §3 note), and insertions
receive sequential codewords in insertion order.  The first assigned
codeword is 1, so the reserved "not found" value 0 is never a real
codeword; this numbering is forced by the decompressor in `src/lzw.c`
(which seeds codewords 1..256 with the single bytes 0..255 and assigns
dynamic entries from 257) together with the spec's round-trip property.
The trie is represented by its insertion sequence: the string at position
`i` holds codeword `i + 1`.  `trieFind k t w` is the codeword of `w` in
`t` when positions are numbered from `k`, and 0 when `w` is absent. -/
def trieFind (k : Nat) : List ByteStr → ByteStr → Nat
  | [], _ => 0
  | v :: t, w => if v = w then k else trieFind (k + 1) t w

/-- Modelled from the spec: trie lookup (`trie_get` in `lzw.c`), returning
0 for "not found". -/
def trie_get (t : List ByteStr) (w : ByteStr) : Nat :=
  trieFind 1 t w

/-- Modelled from the spec: trie insertion (`trie_put` in `lzw.c`); a
string already present keeps its codeword, a new string is appended and
receives the next sequential codeword. -/
def trie_put (t : List ByteStr) (w : ByteStr) : List ByteStr :=
  if w ∈ t then t else t ++ [w]

/-- The initial compression dictionary built by the seeding loop of
`lzw_compress` (`lzw.c` lines 39-49): the 256 single-byte strings inserted
in byte order, so byte `b` holds codeword `b + 1`. -/
def initTrie : List ByteStr := (List.range 256).map (fun b => [b])

/-- Result of the compression scan loop: the final trie, the pending
candidate substring (`substr` in the C), and the emitted content codewords
in emission order (`dest[1..]`). -/
structure CompRes where
  dict : List ByteStr
  substr : ByteStr
  emitted : List Nat

/-- The scan loop of `lzw_compress` (`lzw.c` lines 56-68): each input byte
is appended to the candidate substring; if the extended candidate is
absent from the trie, the codeword of the unextended candidate is emitted,
the extended candidate is inserted, and the candidate is reset to the
single just-read byte. -/
def compRun (t : List ByteStr) (s : ByteStr) : List Nat → CompRes
  | [] => ⟨t, s, []⟩
  | c :: v =>
    if trie_get t (s ++ [c]) = 0 then
      ⟨(compRun (trie_put t (s ++ [c])) [c] v).dict,
       (compRun (trie_put t (s ++ [c])) [c] v).substr,
       trie_get t s :: (compRun (trie_put t (s ++ [c])) [c] v).emitted⟩
    else
      compRun t (s ++ [c]) v

/-- `lzw_compress` of `lzw.c` (lines 38-77): seed the trie with the 256
single bytes, run the scan loop, emit the codeword of the final pending
candidate unconditionally (lines 69-71), and store the input length as
element 0 of the stream (line 75).  The returned list is `dest[0..di-1]`,
`di` being the returned codeword count. -/
def lzw_compress (src : List Nat) : List Nat :=
  src.length :: ((compRun initTrie [] src).emitted
    ++ [trie_get (compRun initTrie [] src).dict (compRun initTrie [] src).substr])

/-- Decompression dictionary: the assigned slots of the `dict` /
`dict_lens` arrays of `lzw_decompress`, as (codeword, entry) pairs in
assignment order.  A codeword with no pair was never assigned; the C code
would read uninitialized or out-of-bounds memory there, which the
embedding reports as `none`. -/
def dictLookup : List (Nat × ByteStr) → Nat → Option ByteStr
  | [], _ => none
  | (k, w) :: d, c => if c = k then some w else dictLookup d c

/-- The initial decompression dictionary built by the seeding loop of
`lzw_decompress` (`lzw.c` lines 91-97): slot `c` holds the single byte
`c - 1`, for `c` = 1..256.  Slot 0 is never written. -/
def initDict : List (Nat × ByteStr) := (List.range 256).map (fun b => (b + 1, [b]))

/-- State of the decompression loop of `lzw_decompress`: the dictionary,
the next-assignable slot `dict_next`, the previous codeword `cw_prev`, the
last encoded codeword `cw_enc`, and the bytes written to `dest` so far. -/
structure DecState where
  dict : List (Nat × ByteStr)
  dict_next : Nat
  cw_prev : Nat
  cw_enc : Nat
  out : ByteStr

/-- One iteration of the decompression loop (`lzw.c` lines 122-170).  If
`cw < dict_next`, the entry of `cw` is copied to the output and the next
entry `dict[cw_prev] ++ [dict[cw][0]]` is built (lines 124-135); otherwise
the self-referential case runs: `dict[cw_enc] ++ [dict[cw_enc][0]]` is
emitted and is itself the next entry, and `cw_enc` is set to `dict_next`
(lines 136-147).  In both cases the new entry is stored at slot
`dict_next`, `dict_next` is incremented, and `cw_prev` is set to `cw`
(lines 161-167).  Reading an unassigned slot, or byte 0 of an empty
entry, is undefined behaviour in the C code: `none`.  (The
capacity-doubling of lines 149-160 only grows the backing storage and is
not observable at this level.) -/
def decompressStep (st : DecState) (cw : Nat) : Option DecState :=
  if cw < st.dict_next then
    (dictLookup st.dict cw).bind (fun e =>
      (dictLookup st.dict st.cw_prev).bind (fun p =>
        e.head?.bind (fun c =>
          some { dict := st.dict ++ [(st.dict_next, p ++ [c])],
                 dict_next := st.dict_next + 1,
                 cw_prev := cw, cw_enc := cw,
                 out := st.out ++ e })))
  else
    (dictLookup st.dict st.cw_enc).bind (fun e =>
      e.head?.bind (fun c =>
        some { dict := st.dict ++ [(st.dict_next, e ++ [c])],
               dict_next := st.dict_next + 1,
               cw_prev := cw, cw_enc := st.dict_next,
               out := st.out ++ (e ++ [c]) }))

/-- The decompression loop (`lzw.c` lines 122-170): fold `decompressStep`
over the content codewords `src[2..]`. -/
def decRun (st : DecState) : List Nat → Option DecState
  | [] => some st
  | c :: cs => (decompressStep st c).bind (fun st' => decRun st' cs)

/-- `lzw_decompress` of `lzw.c` (lines 79-183).  `src[0]` is the stored
length, used to size the `dest` buffer as `src[0] + 1` bytes (lines
112-113); `src[1]` is resolved against the seeded dictionary and copied to
the output (lines 115-121); the remaining codewords are handled by the
loop.  A stream of fewer than two elements makes the C code read `src`
out of bounds (`none`).  The accumulated output must fit in the `dest`
buffer: the `memcpy`s write past the end of the allocation otherwise,
which the embedding reports as `none`.  On success the returned value is
the output bytes (`m.str`); the returned `m.dlen` is their number. -/
def lzw_decompress (src : List Nat) : Option ByteStr :=
  match src with
  | l :: c1 :: rest =>
    (dictLookup initDict c1).bind (fun e =>
      (decRun ⟨initDict, 257, c1, c1, e⟩ rest).bind (fun st =>
        if st.out.length ≤ l + 1 then some st.out else none))
  | _ => none

/-- The content decoding performed by `lzw_decompress`: everything it
computes from the codewords after the stored length `src[0]`. -/
def contentDecode (c1 : Nat) (rest : List Nat) : Option ByteStr :=
  (dictLookup initDict c1).bind (fun e =>
    (decRun ⟨initDict, 257, c1, c1, e⟩ rest).bind (fun st => some st.out))

/-! ### Basic lemmas about the trie model -/

theorem trieFind_succ_eq_zero_iff (k : Nat) (t : List ByteStr) (w : ByteStr) :
    trieFind (k + 1) t w = 0 ↔ w ∉ t := by
  induction t generalizing k with
  | nil => simp [trieFind]
  | cons v t ih =>
    by_cases hv : v = w
    · subst hv
      simp [trieFind]
    · simp only [trieFind, if_neg hv, List.mem_cons]
      rw [ih (k + 1)]
      constructor
      · intro h hmem
        rcases hmem with h1 | h1
        · exact hv h1.symm
        · exact h h1
      · intro h h1
        exact h (Or.inr h1)

theorem trie_get_eq_zero_iff (t : List ByteStr) (w : ByteStr) :
    trie_get t w = 0 ↔ w ∉ t :=
  trieFind_succ_eq_zero_iff 0 t w

theorem trieFind_append_of_mem (k : Nat) (t l : List ByteStr) (w : ByteStr)
    (h : w ∈ t) : trieFind k (t ++ l) w = trieFind k t w := by
  induction t generalizing k with
  | nil => simp at h
  | cons v t ih =>
    by_cases hv : v = w
    · simp [trieFind, hv]
    · have hm : w ∈ t := by
        rcases List.mem_cons.mp h with h1 | h1
        · exact absurd h1.symm hv
        · exact h1
      simp [trieFind, hv, ih _ hm]

theorem trieFind_append_self (k : Nat) (t : List ByteStr) (w : ByteStr)
    (h : w ∉ t) : trieFind k (t ++ [w]) w = k + t.length := by
  induction t generalizing k with
  | nil => simp [trieFind]
  | cons v t ih =>
    have hv : v ≠ w := fun hh => h (hh ▸ List.mem_cons_self v t)
    have hw : w ∉ t := fun hh => h (List.mem_cons_of_mem v hh)
    have hrec := ih (k + 1) hw
    simp only [List.cons_append, trieFind, if_neg hv, List.append_eq, hrec, List.length_cons]
    omega

theorem trieFind_bounds (k : Nat) (t : List ByteStr) (w : ByteStr)
    (h : w ∈ t) : k ≤ trieFind k t w ∧ trieFind k t w < k + t.length := by
  induction t generalizing k with
  | nil => simp at h
  | cons v t ih =>
    by_cases hv : v = w
    · simp only [trieFind, if_pos hv, List.length_cons]
      omega
    · have hm : w ∈ t := by
        rcases List.mem_cons.mp h with h1 | h1
        · exact absurd h1.symm hv
        · exact h1
      have := ih (k + 1) hm
      simp only [trieFind, if_neg hv, List.length_cons]
      omega

theorem trieFind_getElem? (k : Nat) (t : List ByteStr) (w : ByteStr)
    (h : w ∈ t) : t[trieFind k t w - k]? = some w := by
  induction t generalizing k with
  | nil => simp at h
  | cons v t ih =>
    by_cases hv : v = w
    · simp [trieFind, hv]
    · have hm : w ∈ t := by
        rcases List.mem_cons.mp h with h1 | h1
        · exact absurd h1.symm hv
        · exact h1
      have hb := trieFind_bounds (k + 1) t w hm
      have hidx : trieFind k (v :: t) w - k = (trieFind (k + 1) t w - (k + 1)) + 1 := by
        simp only [trieFind, if_neg hv]
        omega
      rw [hidx]
      simpa using ih (k + 1) hm

theorem trieFind_of_getElem? (k i : Nat) (t : List ByteStr) (w : ByteStr)
    (hn : t.Nodup) (h : t[i]? = some w) : trieFind k t w = k + i := by
  induction t generalizing k i with
  | nil => simp at h
  | cons v t ih =>
    cases i with
    | zero =>
      simp only [List.getElem?_cons_zero, Option.some.injEq] at h
      simp [trieFind, h]
    | succ j =>
      simp only [List.getElem?_cons_succ] at h
      have hv : v ≠ w := by
        intro hh
        subst hh
        exact (List.nodup_cons.mp hn).1 (List.mem_iff_getElem?.mpr ⟨j, h⟩)
      have := ih (k + 1) j (List.nodup_cons.mp hn).2 h
      simp only [trieFind, if_neg hv, this]
      omega

/-! ### Lemmas about the initial trie -/

theorem initTrie_length : initTrie.length = 256 := by
  simp [initTrie]

theorem initTrie_getElem? (b : Nat) (hb : b < 256) : initTrie[b]? = some [b] := by
  simp [initTrie, List.getElem?_range hb]

theorem initTrie_nodup : initTrie.Nodup := by
  refine List.Nodup.map ?_ (List.nodup_range 256)
  intro a b hab
  simpa using hab

theorem mem_initTrie_iff (w : ByteStr) : w ∈ initTrie ↔ ∃ b, b < 256 ∧ w = [b] := by
  constructor
  · intro h
    rcases List.mem_map.mp h with ⟨b, hb, rfl⟩
    exact ⟨b, List.mem_range.mp hb, rfl⟩
  · rintro ⟨b, hb, rfl⟩
    exact List.mem_map.mpr ⟨b, List.mem_range.mpr hb, rfl⟩

theorem trie_get_initTrie (b : Nat) (hb : b < 256) :
    trie_get initTrie [b] = b + 1 := by
  have := trieFind_of_getElem? 1 b initTrie [b] initTrie_nodup (initTrie_getElem? b hb)
  rw [trie_get, this, Nat.add_comm]

theorem trie_get_initTrie_long (w : ByteStr) (hw : w.length ≠ 1) :
    trie_get initTrie w = 0 := by
  rw [trie_get_eq_zero_iff]
  intro hmem
  rcases (mem_initTrie_iff w).mp hmem with ⟨b, _, rfl⟩
  simp at hw

/-! ### Lemmas about the decompression dictionary -/

/-- `pairFrom k l` pairs the entries of `l` with consecutive slot numbers
starting at `k`; it describes the decompression dictionary whose assigned
slots are `k, k+1, ...` holding the entries of `l` in order. -/
def pairFrom (k : Nat) : List ByteStr → List (Nat × ByteStr)
  | [] => []
  | w :: l => (k, w) :: pairFrom (k + 1) l

theorem pairFrom_append (k : Nat) (l₁ l₂ : List ByteStr) :
    pairFrom k (l₁ ++ l₂) = pairFrom k l₁ ++ pairFrom (k + l₁.length) l₂ := by
  induction l₁ generalizing k with
  | nil => simp [pairFrom]
  | cons w l ih =>
    have harith : k + 1 + l.length = k + (l.length + 1) := by omega
    simp only [List.cons_append, List.append_eq, pairFrom, ih (k + 1), List.length_cons, harith]

theorem dictLookup_pairFrom (k : Nat) (l : List ByteStr) (c : Nat) :
    dictLookup (pairFrom k l) c =
      if k ≤ c ∧ c < k + l.length then l[c - k]? else none := by
  induction l generalizing k with
  | nil => simp [pairFrom, dictLookup]
  | cons w l ih =>
    by_cases hc : c = k
    · subst hc
      simp [pairFrom, dictLookup]
    · simp only [pairFrom, dictLookup, if_neg hc, ih (k + 1), List.length_cons]
      by_cases h1 : k + 1 ≤ c ∧ c < k + 1 + l.length
      · rw [if_pos h1, if_pos (by omega)]
        have hidx : c - k = (c - (k + 1)) + 1 := by omega
        rw [hidx, List.getElem?_cons_succ]
      · rw [if_neg h1, if_neg (by omega)]

theorem pairFrom_keys (k : Nat) (l : List ByteStr) :
    (pairFrom k l).map Prod.fst = List.range' k l.length := by
  induction l generalizing k with
  | nil => simp [pairFrom]
  | cons w l ih =>
    simp only [pairFrom, List.map_cons, ih (k + 1), List.length_cons, List.range'_succ]

theorem dictLookup_append_of_some (d₁ d₂ : List (Nat × ByteStr)) (c : Nat) (w : ByteStr)
    (h : dictLookup d₁ c = some w) : dictLookup (d₁ ++ d₂) c = some w := by
  induction d₁ with
  | nil => simp [dictLookup] at h
  | cons kv d ih =>
    obtain ⟨k0, w0⟩ := kv
    by_cases hc : c = k0
    · subst hc
      simp [dictLookup] at h
      simp [dictLookup, h]
    · simp only [dictLookup, if_neg hc] at h
      simp [dictLookup, hc, ih h]

theorem dictLookup_append_of_none (d₁ d₂ : List (Nat × ByteStr)) (c : Nat)
    (h : dictLookup d₁ c = none) : dictLookup (d₁ ++ d₂) c = dictLookup d₂ c := by
  induction d₁ with
  | nil => simp [dictLookup]
  | cons kv d ih =>
    obtain ⟨k0, w0⟩ := kv
    by_cases hc : c = k0
    · subst hc
      simp [dictLookup] at h
    · simp only [dictLookup, if_neg hc] at h
      simp [dictLookup, hc, ih h]

theorem dictLookup_isSome_iff (d : List (Nat × ByteStr)) (c : Nat) :
    (dictLookup d c).isSome ↔ c ∈ d.map Prod.fst := by
  induction d with
  | nil => simp [dictLookup]
  | cons kv d ih =>
    obtain ⟨k0, w0⟩ := kv
    by_cases hc : c = k0
    · subst hc
      simp [dictLookup]
    · simp [dictLookup, hc, ih]

theorem initDict_eq_pairFrom : initDict = pairFrom 1 initTrie := by
  have h : ∀ (n a : Nat),
      (List.range' a n).map (fun b => (b + 1, ([b] : ByteStr)))
        = pairFrom (a + 1) ((List.range' a n).map (fun b => [b])) := by
    intro n
    induction n with
    | zero => intro a; simp [pairFrom]
    | succ m ih =>
      intro a
      simp only [List.range'_succ, List.map_cons, pairFrom, ih (a + 1)]
  rw [initDict, initTrie, List.range_eq_range', h 256 0]

theorem dictLookup_initDict (c : Nat) (h1 : 1 ≤ c) (h2 : c ≤ 256) :
    dictLookup initDict c = some [c - 1] := by
  rw [initDict_eq_pairFrom, dictLookup_pairFrom]
  rw [if_pos (by rw [initTrie_length]; omega)]
  exact initTrie_getElem? (c - 1) (by omega) ▸ (by rw [initTrie_getElem? (c - 1) (by omega)])

theorem dictLookup_initDict_zero : dictLookup initDict 0 = none := by
  rw [initDict_eq_pairFrom, dictLookup_pairFrom]
  rw [if_neg (by omega)]

theorem dictLookup_initDict_big (c : Nat) (h : 256 < c) :
    dictLookup initDict c = none := by
  rw [initDict_eq_pairFrom, dictLookup_pairFrom, initTrie_length]
  rw [if_neg (by omega)]

/-! ### Shape of a successful decompression step -/

theorem decompressStep_some_shape (st : DecState) (cw : Nat) (st' : DecState)
    (h : decompressStep st cw = some st') :
    st'.dict_next = st.dict_next + 1 ∧ ∃ e, st'.dict = st.dict ++ [(st.dict_next, e)] := by
  rw [decompressStep] at h
  by_cases hlt : cw < st.dict_next
  · rw [if_pos hlt] at h
    cases h1 : dictLookup st.dict cw with
    | none => rw [h1] at h; simp at h
    | some e =>
      simp only [h1, Option.some_bind] at h
      cases h2 : dictLookup st.dict st.cw_prev with
      | none => rw [h2] at h; simp at h
      | some p =>
        simp only [h2, Option.some_bind] at h
        cases h3 : e.head? with
        | none => rw [h3] at h; simp at h
        | some c =>
          simp only [h3, Option.some_bind, Option.some.injEq] at h
          subst h
          exact ⟨rfl, p ++ [c], rfl⟩
  · rw [if_neg hlt] at h
    cases h1 : dictLookup st.dict st.cw_enc with
    | none => rw [h1] at h; simp at h
    | some e =>
      simp only [h1, Option.some_bind] at h
      cases h3 : e.head? with
      | none => rw [h3] at h; simp at h
      | some c =>
        simp only [h3, Option.some_bind, Option.some.injEq] at h
        subst h
        exact ⟨rfl, e ++ [c], rfl⟩

/-- `lzw_decompress` factored through `contentDecode`: the stored length
`src[0]` enters only the final buffer-fit test. -/
theorem lzw_decompress_eq_contentDecode (l c1 : Nat) (rest : List Nat) :
    lzw_decompress (l :: c1 :: rest)
      = (contentDecode c1 rest).bind
          (fun out => if out.length ≤ l + 1 then some out else none) := by
  rw [lzw_decompress, contentDecode]
  cases h1 : dictLookup initDict c1 with
  | none => simp
  | some e =>
    simp only [Option.some_bind]
    cases h2 : decRun ⟨initDict, 257, c1, c1, e⟩ rest with
    | none => simp
    | some st => simp

/-! ### Claim C2 — corruption is not detected -/

/-- C2: the claim states that a codeword stream whose second element is
at least 257, or more generally any content codeword strictly greater than
the next-assignable counter, makes `lzw_decompress` report a CorruptStream
error and never silently misinterpret the stream.  The code has no error
channel at all: a skip-ahead codeword (here 300, read while the counter is
257) is treated exactly like the self-referential case and the call
returns garbage output successfully, while a second element of 257 or
more makes the C code read unassigned memory (embedded as `none`), which
is a crash, not a reported corruption error. -/
theorem lzw_decompress_no_corruption_detection :
    lzw_decompress [3, 1, 300] = some [0, 0, 0] ∧ lzw_decompress [1, 257] = none := by
  exact ⟨rfl, rfl⟩

/-! ### Claim C5 — the self-referential (KwKwK) step -/

/-- C5: whenever the decompressor reads a codeword `cw` that is not yet in
the dictionary (`cw` at least `dict_next`), it reconstructs the referenced
string as the last fully resolved entry (`dict[cw_enc]`) followed by that
entry's own first byte, emits the reconstruction, appends it as the next
dictionary entry at slot `dict_next`, and marks it (`cw_enc := dict_next`,
the slot of the reconstruction) as the last resolved entry. -/
theorem decompressStep_kwkwk (st : DecState) (cw c0 : Nat) (tl : ByteStr)
    (hcw : st.dict_next ≤ cw)
    (henc : dictLookup st.dict st.cw_enc = some (c0 :: tl)) :
    decompressStep st cw
      = some { dict := st.dict ++ [(st.dict_next, (c0 :: tl) ++ [c0])],
               dict_next := st.dict_next + 1,
               cw_prev := cw, cw_enc := st.dict_next,
               out := st.out ++ ((c0 :: tl) ++ [c0]) } := by
  rw [decompressStep, if_neg (by omega), henc]
  simp [Option.some_bind]

/-- Witness for C5 at a concrete state: the dictionary holds only the 256
seeded entries, the last resolved codeword is 1 (the byte 0), and the next
codeword read is 257 = `dict_next`. -/
theorem decompressStep_kwkwk_witness :
    decompressStep ⟨initDict, 257, 1, 1, [0]⟩ 257
      = some { dict := initDict ++ [(257, [0] ++ [0])],
               dict_next := 258, cw_prev := 257, cw_enc := 257,
               out := [0] ++ ([0] ++ [0]) } :=
  decompressStep_kwkwk ⟨initDict, 257, 1, 1, [0]⟩ 257 0 []
    (by decide) (dictLookup_initDict 1 (by omega) (by omega))

/-! ### Claim C6 — compression of a single byte -/

/-- C6 counterexample: the claim states `compress [x] = [1, x]`; at the
concrete byte 65 the stream is `[1, 66]`, because the dictionary numbers
single-byte entries from codeword 1 (byte value + 1), codeword 0 being the
trie's "not found" value. -/
theorem lzw_compress_single_counterexample : lzw_compress [65] ≠ [1, 65] := by
  decide

/-- C6 amended: compressing a one-byte buffer `[x]` yields the two-element
stream `[1, x + 1]`: the length 1 followed by the codeword of byte `x`,
which is `x + 1`. -/
theorem lzw_compress_single (x : Nat) (hx : x < 256) :
    lzw_compress [x] = [1, x + 1] := by
  have h1 : trie_get initTrie [x] = x + 1 := trie_get_initTrie x hx
  simp [lzw_compress, compRun, h1]

/-- Witness for C6 amended at byte 65. -/
theorem lzw_compress_single_witness : lzw_compress [65] = [1, 66] :=
  lzw_compress_single 65 (by omega)

/-! ### Claim C8 — the empty buffer -/

/-- C8: the claim states that compressing the empty buffer yields the
single-element stream `[0]` and that decompressing it yields the empty
buffer.  The code instead emits a spurious second codeword 0 (the
unconditional final emission looks up the empty candidate, absent from the
trie): `compress [] = [0, 0]`.  Decompressing either `[0]` (the stream the
claim describes) or `[0, 0]` (the stream the code produces) fails: the
former reads `src[1]` out of bounds, the latter resolves codeword 0, an
unassigned slot. -/
theorem lzw_empty_input_behaviour :
    lzw_compress [] = [0, 0] ∧ lzw_decompress [0] = none
      ∧ lzw_decompress [0, 0] = none := by
  exact ⟨rfl, rfl, rfl⟩

/-! ### Claim C10 — influence of the stored length on decompression -/

/-- C10 counterexample: two streams of the same length that differ only in
the first element can decompress differently: with stored length 0 the
presized buffer (1 byte) cannot hold the 2 decoded bytes — the C code
writes past the allocation — while with stored length 2 decompression
succeeds. -/
theorem stored_length_changes_result :
    lzw_decompress [0, 1, 1] ≠ lzw_decompress [2, 1, 1] := by
  decide

/-- C10 amended: the stored length `src[0]` is used only for the output
buffer size: decoded bytes and their number are computed solely from the
content codewords, and when two runs on the same content codewords both
succeed they return identical bytes (hence identical `dlen`); there is no
check that the stored length agrees with the decoded length.  The first
element can, however, decide success: a stored length smaller than the
decoded content makes the C code write out of bounds (`none`). -/
theorem stored_length_only_sizes_buffer :
    (∀ l c1 rest, lzw_decompress (l :: c1 :: rest)
        = (contentDecode c1 rest).bind
            (fun out => if out.length ≤ l + 1 then some out else none)) ∧
    (∀ l l' c1 rest out out',
        lzw_decompress (l :: c1 :: rest) = some out →
        lzw_decompress (l' :: c1 :: rest) = some out' → out = out') := by
  refine ⟨lzw_decompress_eq_contentDecode, ?_⟩
  intro l l' c1 rest out out' h h'
  rw [lzw_decompress_eq_contentDecode] at h h'
  cases hc : contentDecode c1 rest with
  | none => rw [hc] at h; simp at h
  | some o =>
    rw [hc] at h h'
    simp only [Option.some_bind] at h h'
    by_cases hfit : o.length ≤ l + 1
    · by_cases hfit' : o.length ≤ l' + 1
      · rw [if_pos hfit] at h
        rw [if_pos hfit'] at h'
        cases h
        cases h'
        rfl
      · rw [if_neg hfit'] at h'
        cases h'
    · rw [if_neg hfit] at h
      cases h

/-- Witness for C10 amended: streams `[2,1,1]` and `[3,1,1]` decode to the
same bytes. -/
theorem stored_length_only_sizes_buffer_witness : ([0, 0] : ByteStr) = [0, 0] :=
  stored_length_only_sizes_buffer.2 2 3 1 [1] [0, 0] [0, 0] (by rfl) (by rfl)

/-! ### Claim C4 — the first stream element -/

/-- C4: the first element of the stream produced by `lzw_compress` is the
input length, and `lzw_decompress` uses the first element of its input
only to size the output buffer (the final fit test against `src[0] + 1`
allocated bytes), never decoding it as content: the decoded bytes are
`contentDecode c1 rest`, computed from the elements after the first. -/
theorem stream_first_element_is_length :
    (∀ src : List Nat, (lzw_compress src).head? = some src.length) ∧
    (∀ l c1 rest, lzw_decompress (l :: c1 :: rest)
        = (contentDecode c1 rest).bind
            (fun out => if out.length ≤ l + 1 then some out else none)) := by
  exact ⟨fun src => rfl, lzw_decompress_eq_contentDecode⟩

/-! ### Claims C3 and C9 — dictionary slot bookkeeping -/

theorem mem_range_one (s n c : Nat) : c ∈ List.range' s n ↔ s ≤ c ∧ c < s + n := by
  rw [List.mem_range']
  constructor
  · rintro ⟨i, hi, rfl⟩
    omega
  · intro hc
    exact ⟨c - s, by omega, by omega⟩

/-- Every successful run of the decompression loop keeps the assigned
slots equal to `1 .. dict_next - 1`, appending one slot per codeword. -/
theorem decRun_keys (cs : List Nat) : ∀ (d st : DecState),
    decRun d cs = some st →
    d.dict.map Prod.fst = List.range' 1 (d.dict_next - 1) → 1 ≤ d.dict_next →
    st.dict_next = d.dict_next + cs.length ∧
    st.dict.map Prod.fst = List.range' 1 (st.dict_next - 1) ∧ 1 ≤ st.dict_next := by
  induction cs with
  | nil =>
    intro d st h hkeys hpos
    rw [decRun] at h
    cases h
    exact ⟨by simp, hkeys, hpos⟩
  | cons c cs ih =>
    intro d st h hkeys hpos
    rw [decRun] at h
    cases hstep : decompressStep d c with
    | none => rw [hstep] at h; simp at h
    | some d₁ =>
      rw [hstep, Option.some_bind] at h
      obtain ⟨hnext, e, hdict⟩ := decompressStep_some_shape d c d₁ hstep
      have hkeys₁ : d₁.dict.map Prod.fst = List.range' 1 (d₁.dict_next - 1) := by
        rw [hdict, List.map_append, hkeys, hnext]
        have h1 : d.dict_next + 1 - 1 = (d.dict_next - 1) + 1 := by omega
        rw [h1, List.range'_1_concat]
        have h2 : 1 + (d.dict_next - 1) = d.dict_next := by omega
        simp [h2]
      have hrest := ih d₁ st h hkeys₁ (by omega)
      have h3 := hrest.1
      refine ⟨?_, hrest.2.1, hrest.2.2⟩
      simp only [List.length_cons]
      omega

theorem initDict_keys : initDict.map Prod.fst = List.range' 1 256 := by
  rw [initDict_eq_pairFrom, pairFrom_keys, initTrie_length]

/-- C9: in every successful run of the decompression loop from the seeded
dictionary, each iteration appends exactly one entry at slot `dict_next`
and increments it, so after the `rest.length` content codewords that
follow the second stream element `dict_next = 257 + rest.length`; the
assigned slots are then exactly `1 .. dict_next - 1`, and slot 0 is never
assigned. -/
theorem dec_loop_slot_invariant (rest : List Nat) (c1 : Nat) (e : ByteStr)
    (st : DecState)
    (hrun : decRun ⟨initDict, 257, c1, c1, e⟩ rest = some st) :
    st.dict_next = 257 + rest.length ∧
    st.dict.map Prod.fst = List.range' 1 (256 + rest.length) ∧
    (∀ c, (dictLookup st.dict c).isSome ↔ (1 ≤ c ∧ c < st.dict_next)) ∧
    dictLookup st.dict 0 = none := by
  have h0 : (⟨initDict, 257, c1, c1, e⟩ : DecState).dict.map Prod.fst
      = List.range' 1 ((⟨initDict, 257, c1, c1, e⟩ : DecState).dict_next - 1) := by
    simpa using initDict_keys
  obtain ⟨hnext, hkeys, hpos⟩ := decRun_keys rest _ st hrun h0 (by simp)
  have hnext' : st.dict_next = 257 + rest.length := by simpa using hnext
  have hkeys' : st.dict.map Prod.fst = List.range' 1 (256 + rest.length) := by
    rw [hkeys, hnext']
    have : 257 + rest.length - 1 = 256 + rest.length := by omega
    rw [this]
  have hiff : ∀ c, (dictLookup st.dict c).isSome ↔ (1 ≤ c ∧ c < st.dict_next) := by
    intro c
    rw [dictLookup_isSome_iff, hkeys', mem_range_one, hnext']
    omega
  refine ⟨hnext', hkeys', hiff, ?_⟩
  rw [← Option.not_isSome_iff_eq_none]
  intro hcontra
  have := (hiff 0).mp hcontra
  omega

/-- Witness for C9: a run over the single content codeword 1 ends with
`dict_next = 258` and assigned slots `1 .. 257`. -/
theorem dec_loop_slot_invariant_witness :
    (DecState.mk (initDict ++ [(257, [0] ++ [0])]) 258 1 1 ([0] ++ [0])).dict_next
        = 257 + [1].length ∧
    (DecState.mk (initDict ++ [(257, [0] ++ [0])]) 258 1 1 ([0] ++ [0])).dict.map Prod.fst
        = List.range' 1 (256 + [1].length) ∧
    (∀ c, (dictLookup (DecState.mk (initDict ++ [(257, [0] ++ [0])]) 258 1 1
              ([0] ++ [0])).dict c).isSome
        ↔ (1 ≤ c ∧ c < (DecState.mk (initDict ++ [(257, [0] ++ [0])]) 258 1 1
              ([0] ++ [0])).dict_next)) ∧
    dictLookup (DecState.mk (initDict ++ [(257, [0] ++ [0])]) 258 1 1
        ([0] ++ [0])).dict 0 = none :=
  dec_loop_slot_invariant [1] 1 [0]
    (DecState.mk (initDict ++ [(257, [0] ++ [0])]) 258 1 1 ([0] ++ [0])) (by rfl)

/-- C3 counterexample: the claim states that codeword `c` in `0..255` maps
to the single byte `c` and that 256 is never assigned.  In the code,
codeword 1 maps to byte 0 (not byte 1) and codeword 256 is assigned the
single byte 255. -/
theorem dec_dict_seed_counterexample :
    dictLookup initDict 1 ≠ some [1] ∧ dictLookup initDict 256 = some [255] := by
  exact ⟨by decide, by rfl⟩

/-- C3 amended: in the decompressor's dictionary each codeword `c` in
`1..256` maps to the one-byte string `[c - 1]`; codeword 0 is never
assigned (it is the trie's "not found" value on the compression side);
and dynamic entries are appended sequentially at `dict_next`, which starts
at 257: after `rest.length` loop iterations the assigned slots are exactly
`1 .. 256 + rest.length`. -/
theorem dec_dict_layout :
    (∀ c, 1 ≤ c → c ≤ 256 → dictLookup initDict c = some [c - 1]) ∧
    dictLookup initDict 0 = none ∧
    (∀ st cw st', decompressStep st cw = some st' →
        st'.dict_next = st.dict_next + 1 ∧
        ∃ e, st'.dict = st.dict ++ [(st.dict_next, e)]) ∧
    (∀ rest c1 e st, decRun ⟨initDict, 257, c1, c1, e⟩ rest = some st →
        st.dict.map Prod.fst = List.range' 1 (256 + rest.length)) := by
  refine ⟨dictLookup_initDict, dictLookup_initDict_zero, decompressStep_some_shape, ?_⟩
  intro rest c1 e st hrun
  have h0 : (⟨initDict, 257, c1, c1, e⟩ : DecState).dict.map Prod.fst
      = List.range' 1 ((⟨initDict, 257, c1, c1, e⟩ : DecState).dict_next - 1) := by
    simpa using initDict_keys
  obtain ⟨hnext, hkeys, hpos⟩ := decRun_keys rest _ st hrun h0 (by simp)
  rw [hkeys]
  have harith : st.dict_next - 1 = 256 + rest.length := by
    simp only [show (⟨initDict, 257, c1, c1, e⟩ : DecState).dict_next = 257 from rfl] at hnext
    omega
  rw [harith]

/-- Witness for C3 amended: codeword 7 maps to byte 6, and a concrete
step appends at slot 257. -/
theorem dec_dict_layout_witness :
    dictLookup initDict 7 = some [6] ∧
    ((DecState.mk (initDict ++ [(257, [0] ++ [0])]) 258 1 1 ([0] ++ [0])).dict_next = 258 ∧
      ∃ e, (DecState.mk (initDict ++ [(257, [0] ++ [0])]) 258 1 1 ([0] ++ [0])).dict
          = initDict ++ [(257, e)]) := by
  refine ⟨dec_dict_layout.1 7 (by omega) (by omega), ?_⟩
  have h := dec_dict_layout.2.2.1 ⟨initDict, 257, 1, 1, [0]⟩ 1
    (DecState.mk (initDict ++ [(257, [0] ++ [0])]) 258 1 1 ([0] ++ [0])) (by rfl)
  exact ⟨h.1, h.2⟩

/-! ### Claim C7 — bound on the number of codewords -/

/-- Counting invariant of the scan loop: emissions plus the pending
candidate length never exceed the bytes consumed, and the candidate stays
nonempty. -/
theorem compRun_count (v : List Nat) : ∀ (t : List ByteStr) (s : ByteStr),
    s ≠ [] →
    (compRun t s v).emitted.length + (compRun t s v).substr.length
        ≤ s.length + v.length ∧
    (compRun t s v).substr ≠ [] := by
  induction v with
  | nil =>
    intro t s hs
    rw [compRun]
    exact ⟨by simp, hs⟩
  | cons c v ih =>
    intro t s hs
    rw [compRun]
    by_cases h0 : trie_get t (s ++ [c]) = 0
    · rw [if_pos h0]
      have hr := ih (trie_put t (s ++ [c])) [c] (by simp)
      have hlen : 0 < s.length := List.length_pos.mpr hs
      refine ⟨?_, hr.2⟩
      simp only [List.length_cons, List.length_nil] at hr ⊢
      omega
    · rw [if_neg h0]
      have hr := ih t (s ++ [c]) (by simp)
      refine ⟨?_, hr.2⟩
      simp only [List.length_append, List.length_cons, List.length_nil] at hr ⊢
      omega

/-- C7 counterexample: the claim bounds the stream by `N + 1` codewords
for every input of length `N`; the empty input (`N = 0`) produces 2
codewords, the stored length 0 and a spurious codeword 0 emitted by the
unconditional final lookup of the empty candidate. -/
theorem lzw_compress_length_counterexample :
    ¬ ((lzw_compress []).length ≤ ([] : List Nat).length + 1) := by
  decide

/-- C7 amended: for every nonempty byte buffer of length `N`, the stream
produced by `lzw_compress` contains at most `N + 1` codewords.  (For the
empty buffer the stream has 2 codewords.) -/
theorem lzw_compress_length_le (src : List Nat) (hne : src ≠ [])
    (hb : ∀ b ∈ src, b < 256) :
    (lzw_compress src).length ≤ src.length + 1 := by
  cases src with
  | nil => exact absurd rfl hne
  | cons b v =>
    have hb0 : b < 256 := hb b (List.mem_cons_self b v)
    have h1 : trie_get initTrie ([] ++ [b]) = b + 1 := by
      rw [List.nil_append]
      exact trie_get_initTrie b hb0
    have hcount := compRun_count v initTrie [b] (by simp)
    rw [lzw_compress]
    have hstep : compRun initTrie [] (b :: v) = compRun initTrie [b] v := by
      rw [compRun, if_neg (by omega), List.nil_append]
    rw [hstep]
    have hsub : 1 ≤ (compRun initTrie [b] v).substr.length := by
      cases hss : (compRun initTrie [b] v).substr with
      | nil => exact absurd hss hcount.2
      | cons x xs => simp
    simp only [List.length_cons, List.length_append, List.length_nil] at hcount ⊢
    omega

/-- Witness for C7 amended at the one-byte buffer `[65]`. -/
theorem lzw_compress_length_le_witness : (lzw_compress [65]).length ≤ [65].length + 1 :=
  lzw_compress_length_le [65] (by simp) (by decide)

/-! ### Claim C1 — round-trip correctness -/

theorem headI_append (s l : ByteStr) (hs : s ≠ []) : (s ++ l).headI = s.headI := by
  cases s with
  | nil => exact absurd rfl hs
  | cons a s => rfl

theorem head?_eq_headI (s : ByteStr) (hs : s ≠ []) : s.head? = some s.headI := by
  cases s with
  | nil => exact absurd rfl hs
  | cons a s => rfl

theorem nodup_concat_of_not_mem (t : List ByteStr) (x : ByteStr)
    (hn : t.Nodup) (hx : x ∉ t) : (t ++ [x]).Nodup := by
  refine List.Nodup.append hn (List.nodup_singleton x) ?_
  intro a ha hax
  rw [List.mem_singleton] at hax
  exact hx (hax ▸ ha)

/-- The simulation invariant between a mid-scan compressor state
(trie `t`, pending candidate `s`) and the decompressor state `d` reached
after consuming the codewords emitted so far.  `p` is the byte string of
the last emitted codeword (`dict[cw_prev]`); the last string inserted in
the trie is `p` extended by the first byte of `s`, and the decompressor is
exactly one entry behind the trie (`dict_next = t.length`, its dictionary
pairing the slots `1..t.length - 1` with the strings of `t` in order). -/
structure SimInv (t : List ByteStr) (s : ByteStr) (d : DecState) (p : ByteStr) : Prop where
  t_init : ∃ ex, t = initTrie ++ ex
  t_nodup : t.Nodup
  t_entries_ne : ∀ w ∈ t, w ≠ []
  s_ne : s ≠ []
  s_mem : s ∈ t
  dict_eq : d.dict = pairFrom 1 t.dropLast
  next_eq : d.dict_next = t.length
  enc_eq : d.cw_enc = d.cw_prev
  prev_look : dictLookup d.dict d.cw_prev = some p
  p_ne : p ≠ []
  last_eq : t.getLast? = some (p ++ [s.headI])

/-- Processing one emitted codeword `trie_get t s` from an invariant state
appends the trie's newest entry to the decompressor dictionary (catching
it up to `pairFrom 1 t`), emits exactly the bytes of `s`, and leaves
`cw_prev = cw_enc` resolving to `s`.  The in-dictionary case and the
self-referential case of the loop body both realize this. -/
theorem decode_emit (t : List ByteStr) (s : ByteStr) (d : DecState) (p : ByteStr)
    (h : SimInv t s d p) :
    ∃ d₁, decompressStep d (trie_get t s) = some d₁
      ∧ d₁.dict = pairFrom 1 t
      ∧ d₁.dict_next = t.length + 1
      ∧ d₁.cw_enc = d₁.cw_prev
      ∧ d₁.cw_prev = trie_get t s
      ∧ dictLookup d₁.dict d₁.cw_prev = some s
      ∧ d₁.out = d.out ++ s := by
  obtain ⟨t_init, t_nodup, t_ne, s_ne, s_mem, dict_eq, next_eq, enc_eq,
    prev_look, p_ne, last_eq⟩ := h
  have htne : t ≠ [] := by
    intro h0
    rw [h0] at s_mem
    simp at s_mem
  have hLpos : 0 < t.length := List.length_pos.mpr htne
  have hb : 1 ≤ trie_get t s ∧ trie_get t s < 1 + t.length :=
    trieFind_bounds 1 t s s_mem
  have hget : t[trie_get t s - 1]? = some s := trieFind_getElem? 1 t s s_mem
  have hglast : t.getLast htne = p ++ [s.headI] := by
    have h1 := List.getLast?_eq_getLast t htne
    rw [h1] at last_eq
    exact Option.some_inj.mp last_eq
  have hdropcat : t.dropLast ++ [p ++ [s.headI]] = t := by
    rw [← hglast]
    exact List.dropLast_concat_getLast htne
  have hdictfull : pairFrom 1 t = pairFrom 1 t.dropLast ++ [(t.length, p ++ [s.headI])] := by
    conv_lhs => rw [← hdropcat]
    rw [pairFrom_append]
    have h1 : 1 + t.dropLast.length = t.length := by
      rw [List.length_dropLast]
      omega
    rw [h1]
    simp only [pairFrom]
  have hlook_full : dictLookup (pairFrom 1 t) (trie_get t s) = some s := by
    rw [dictLookup_pairFrom, if_pos ⟨hb.1, by omega⟩]
    exact hget
  by_cases hlt : trie_get t s < t.length
  · -- `cw < dict_next`: the codeword is already in the decompressor dictionary.
    have hlook : dictLookup d.dict (trie_get t s) = some s := by
      rw [dict_eq, dictLookup_pairFrom]
      rw [if_pos ⟨hb.1, by rw [List.length_dropLast]; omega⟩]
      rw [List.getElem?_dropLast, if_pos (by omega)]
      exact hget
    refine ⟨{ dict := d.dict ++ [(d.dict_next, p ++ [s.headI])],
              dict_next := d.dict_next + 1, cw_prev := trie_get t s,
              cw_enc := trie_get t s, out := d.out ++ s },
            ?_, ?_, ?_, ?_, ?_, ?_, ?_⟩
    · rw [decompressStep, if_pos (by omega : trie_get t s < d.dict_next), hlook,
        Option.some_bind, prev_look, Option.some_bind, head?_eq_headI s s_ne,
        Option.some_bind]
    · show d.dict ++ [(d.dict_next, p ++ [s.headI])] = pairFrom 1 t
      rw [dict_eq, next_eq]
      exact hdictfull.symm
    · show d.dict_next + 1 = t.length + 1
      rw [next_eq]
    · rfl
    · rfl
    · show dictLookup (d.dict ++ [(d.dict_next, p ++ [s.headI])]) (trie_get t s) = some s
      have hd : d.dict ++ [(d.dict_next, p ++ [s.headI])] = pairFrom 1 t := by
        rw [dict_eq, next_eq]
        exact hdictfull.symm
      rw [hd]
      exact hlook_full
    · rfl
  · -- `cw = dict_next`: the self-referential case.
    have hceq : trie_get t s = t.length := by omega
    have hsglast : s = p ++ [s.headI] := by
      have h1 : t.getLast? = some s := by
        rw [List.getLast?_eq_getElem?]
        rw [hceq] at hget
        exact hget
      rw [last_eq] at h1
      exact (Option.some_inj.mp h1).symm
    have hph : p.headI = s.headI := by
      conv_rhs => rw [hsglast]
      rw [headI_append p [s.headI] p_ne]
    have hentry : p ++ [p.headI] = s := by
      rw [hph, ← hsglast]
    have hd : d.dict ++ [(d.dict_next, p ++ [p.headI])] = pairFrom 1 t := by
      rw [dict_eq, next_eq, hph]
      exact hdictfull.symm
    refine ⟨{ dict := d.dict ++ [(d.dict_next, p ++ [p.headI])],
              dict_next := d.dict_next + 1, cw_prev := trie_get t s,
              cw_enc := d.dict_next, out := d.out ++ (p ++ [p.headI]) },
            ?_, ?_, ?_, ?_, ?_, ?_, ?_⟩
    · rw [decompressStep, if_neg (by omega : ¬ trie_get t s < d.dict_next),
        enc_eq, prev_look, Option.some_bind, head?_eq_headI p p_ne, Option.some_bind]
    · show d.dict ++ [(d.dict_next, p ++ [p.headI])] = pairFrom 1 t
      exact hd
    · show d.dict_next + 1 = t.length + 1
      rw [next_eq]
    · show d.dict_next = trie_get t s
      rw [next_eq, hceq]
    · rfl
    · show dictLookup (d.dict ++ [(d.dict_next, p ++ [p.headI])]) (trie_get t s) = some s
      rw [hd]
      exact hlook_full
    · show d.out ++ (p ++ [p.headI]) = d.out ++ s
      rw [hentry]

/-- Main simulation: from an invariant pair of states, running the scan
loop on the remaining input `v` and feeding every codeword it emits —
including the final codeword of the pending candidate — to the
decompression loop succeeds and appends exactly `s ++ v` (the candidate
plus the remaining input) to the decompressor output. -/
theorem sim_run (v : List Nat) : ∀ (t : List ByteStr) (s : ByteStr) (d : DecState) (p : ByteStr),
    (∀ c ∈ v, c < 256) → SimInv t s d p →
    ∃ d', decRun d ((compRun t s v).emitted
            ++ [trie_get (compRun t s v).dict (compRun t s v).substr]) = some d'
      ∧ d'.out = d.out ++ (s ++ v) := by
  induction v with
  | nil =>
    intro t s d p hv h
    obtain ⟨d₁, hstep, _, _, _, _, _, hout⟩ := decode_emit t s d p h
    refine ⟨d₁, ?_, ?_⟩
    · rw [compRun]
      rw [List.nil_append, decRun, hstep, Option.some_bind, decRun]
    · rw [hout, List.append_nil]
  | cons c v ih =>
    intro t s d p hv h
    have hc : c < 256 := hv c (List.mem_cons_self c v)
    have hv' : ∀ x ∈ v, x < 256 := fun x hx => hv x (List.mem_cons_of_mem c hx)
    by_cases h0 : trie_get t (s ++ [c]) = 0
    · -- the extended candidate is new: emit, insert, reset
      have hnotmem : (s ++ [c]) ∉ t := (trie_get_eq_zero_iff t (s ++ [c])).mp h0
      have hput : trie_put t (s ++ [c]) = t ++ [s ++ [c]] := by
        rw [trie_put, if_neg hnotmem]
      obtain ⟨d₁, hstep, hdict₁, hnext₁, henc₁, hprev₁, hlook₁, hout₁⟩ :=
        decode_emit t s d p h
      obtain ⟨t_init, t_nodup, t_ne, s_ne, s_mem, dict_eq, next_eq, enc_eq,
        prev_look, p_ne, last_eq⟩ := h
      have hInv : SimInv (t ++ [s ++ [c]]) [c] d₁ s := by
        refine ⟨?_, ?_, ?_, ?_, ?_, ?_, ?_, ?_, ?_, ?_, ?_⟩
        · obtain ⟨ex, hex⟩ := t_init
          exact ⟨ex ++ [s ++ [c]], by rw [hex, List.append_assoc]⟩
        · exact nodup_concat_of_not_mem t (s ++ [c]) t_nodup hnotmem
        · intro w hw
          rcases List.mem_append.mp hw with h1 | h1
          · exact t_ne w h1
          · rw [List.mem_singleton] at h1
            subst h1
            simp
        · simp
        · apply List.mem_append_left
          obtain ⟨ex, hex⟩ := t_init
          rw [hex]
          apply List.mem_append_left
          exact (mem_initTrie_iff [c]).mpr ⟨c, hc, rfl⟩
        · rw [hdict₁, List.dropLast_concat]
        · rw [hnext₁]
          simp
        · exact henc₁
        · exact hlook₁
        · exact s_ne
        · rw [List.getLast?_concat]
          rfl
      obtain ⟨d', hrun', hout'⟩ := ih (t ++ [s ++ [c]]) [c] d₁ s hv' hInv
      refine ⟨d', ?_, ?_⟩
      · rw [compRun, if_pos h0, hput]
        rw [List.cons_append, decRun, hstep, Option.some_bind]
        exact hrun'
      · rw [hout', hout₁, List.append_assoc]
        rfl
    · -- the extended candidate is already known: keep extending
      have hmem' : (s ++ [c]) ∈ t := by
        by_contra hcontra
        exact h0 ((trie_get_eq_zero_iff t (s ++ [c])).mpr hcontra)
      obtain ⟨t_init, t_nodup, t_ne, s_ne, s_mem, dict_eq, next_eq, enc_eq,
        prev_look, p_ne, last_eq⟩ := h
      have hInv : SimInv t (s ++ [c]) d p := by
        refine ⟨t_init, t_nodup, t_ne, by simp, hmem', dict_eq, next_eq, enc_eq,
          prev_look, p_ne, ?_⟩
        rw [headI_append s [c] s_ne]
        exact last_eq
      obtain ⟨d', hrun', hout'⟩ := ih t (s ++ [c]) d p hv' hInv
      refine ⟨d', ?_, ?_⟩
      · rw [compRun, if_neg h0]
        exact hrun'
      · rw [hout', List.append_assoc]
        rfl

/-- C1 counterexample: the claim quantifies over all buffers including the
empty one.  `lzw_compress [] = [0, 0]` (the unconditional final emission
adds a spurious codeword 0), and decompressing that stream resolves
codeword 0 — an unassigned dictionary slot, an uninitialized read in the
C — so the round trip fails on the empty buffer. -/
theorem lzw_roundtrip_empty_counterexample :
    lzw_decompress (lzw_compress []) ≠ some [] := by
  decide

/-- C1 amended: for every nonempty byte buffer `B`, decompressing the
stream produced by compressing `B` yields exactly `B` (same bytes, same
length). -/
theorem lzw_roundtrip (B : List Nat) (hne : B ≠ []) (hb : ∀ b ∈ B, b < 256) :
    lzw_decompress (lzw_compress B) = some B := by
  cases B with
  | nil => exact absurd rfl hne
  | cons b v =>
    have hb0 : b < 256 := hb b (List.mem_cons_self b v)
    have hlook1 : dictLookup initDict (b + 1) = some [b] := by
      have h1 := dictLookup_initDict (b + 1) (by omega) (by omega)
      simpa using h1
    have hg1 : trie_get initTrie [b] = b + 1 := trie_get_initTrie b hb0
    have hstep1 : compRun initTrie [] (b :: v) = compRun initTrie [b] v := by
      have h1 : trie_get initTrie ([] ++ [b]) = b + 1 := by
        rw [List.nil_append]
        exact hg1
      rw [compRun, if_neg (by omega), List.nil_append]
    cases v with
    | nil =>
      have hcomp : lzw_compress [b] = [1, b + 1] := by
        rw [lzw_compress, hstep1, compRun]
        simp [hg1]
      rw [hcomp, lzw_decompress_eq_contentDecode, contentDecode, hlook1,
        Option.some_bind, decRun, Option.some_bind, Option.some_bind]
      simp
    | cons c v' =>
      have h2 : trie_get initTrie ([b] ++ [c]) = 0 :=
        trie_get_initTrie_long ([b] ++ [c]) (by simp)
      have hnotmem2 : ([b] ++ [c]) ∉ initTrie := (trie_get_eq_zero_iff _ _).mp h2
      have hstep2 : compRun initTrie [b] (c :: v') =
          ⟨(compRun (initTrie ++ [[b] ++ [c]]) [c] v').dict,
           (compRun (initTrie ++ [[b] ++ [c]]) [c] v').substr,
           trie_get initTrie [b]
             :: (compRun (initTrie ++ [[b] ++ [c]]) [c] v').emitted⟩ := by
        rw [compRun, if_pos h2, trie_put, if_neg hnotmem2]
      have hc : c < 256 := hb c (by simp)
      have hv' : ∀ x ∈ v', x < 256 := fun x hx => hb x (by simp [hx])
      have hInv : SimInv (initTrie ++ [[b] ++ [c]]) [c]
          ⟨initDict, 257, b + 1, b + 1, [b]⟩ [b] := by
        refine ⟨⟨[[b] ++ [c]], rfl⟩,
          nodup_concat_of_not_mem _ _ initTrie_nodup hnotmem2, ?_, by simp, ?_,
          ?_, ?_, rfl, ?_, by simp, ?_⟩
        · intro w hw
          rcases List.mem_append.mp hw with h1 | h1
          · rcases (mem_initTrie_iff w).mp h1 with ⟨x, _, rfl⟩
            simp
          · rw [List.mem_singleton] at h1
            subst h1
            simp
        · apply List.mem_append_left
          exact (mem_initTrie_iff [c]).mpr ⟨c, hc, rfl⟩
        · show initDict = pairFrom 1 ((initTrie ++ [[b] ++ [c]]).dropLast)
          rw [List.dropLast_concat]
          exact initDict_eq_pairFrom
        · show (257 : Nat) = (initTrie ++ [[b] ++ [c]]).length
          simp [initTrie_length]
        · exact hlook1
        · show (initTrie ++ [[b] ++ [c]]).getLast? = some ([b] ++ [[c].headI])
          rw [List.getLast?_concat]
          rfl
      obtain ⟨d', hrun', hout'⟩ := sim_run v' (initTrie ++ [[b] ++ [c]]) [c]
        ⟨initDict, 257, b + 1, b + 1, [b]⟩ [b] hv' hInv
      have hcomp : lzw_compress (b :: c :: v')
          = (b :: c :: v').length :: (b + 1)
              :: ((compRun (initTrie ++ [[b] ++ [c]]) [c] v').emitted
                ++ [trie_get (compRun (initTrie ++ [[b] ++ [c]]) [c] v').dict
                      (compRun (initTrie ++ [[b] ++ [c]]) [c] v').substr]) := by
        rw [lzw_compress, hstep1, hstep2, hg1]
        rfl
      rw [hcomp, lzw_decompress_eq_contentDecode, contentDecode, hlook1,
        Option.some_bind, hrun', Option.some_bind, Option.some_bind]
      rw [hout']
      have hlen : (([b] : ByteStr) ++ ([c] ++ v')).length ≤ (b :: c :: v').length + 1 := by
        simp
      rw [if_pos hlen]
      rfl

/-- Witness for C1 amended on the highly repetitive buffer `[0, 0, 0]`,
which exercises the self-referential (KwKwK) decoder case: its stream is
`[3, 1, 257]`. -/
theorem lzw_roundtrip_witness : lzw_decompress (lzw_compress [0, 0, 0]) = some [0, 0, 0] :=
  lzw_roundtrip [0, 0, 0] (by simp) (by decide)
